import Mathlib

/-!
Shallow embedding of the streaming-file-service core
(`src/plugins/streaming-file-service/src/server.js`) of the
forgehooks-registry repository.

The server keeps three in-memory `Map`s — `uploadSessions`, `files`,
`transformJobs` (server.js lines 55-57) — plus a chunk staging directory on
disk (`config.chunksPath/<uploadId>/chunk_<i>`).  We model the maps and the
staging directory as association lists, byte buffers as `List Nat`, SHA-256
as an abstract function parameter `hash : Bytes → String` (the code only
ever feeds bytes to `crypto.createHash` and reads the hex digest), and
timestamps as integer milliseconds.  `uuidv4()` results are passed in as
explicit identifier parameters.
-/

set_option autoImplicit false

namespace SFS

/-- Byte buffers (Node `Buffer`) as lists of byte values. -/
abbrev Bytes := List Nat

/-- First value stored under key `k`, mirroring `Map.get` / reading the file
at a path. -/
def lookupKey {α β : Type} [DecidableEq α] (k : α) : List (α × β) → Option β
  | [] => none
  | p :: ps => if p.1 = k then some p.2 else lookupKey k ps

/-- Store `v` under key `k`, overwriting any previous binding, mirroring
`Map.set` / `fs.writeFile` at an existing path. -/
def setKey {α β : Type} [DecidableEq α] (k : α) (v : β) (m : List (α × β)) :
    List (α × β) :=
  (k, v) :: m.filter (fun p => p.1 ≠ k)

/-- Remove the binding for `k`, mirroring `Map.delete` / `fs.rm`. -/
def eraseKey {α β : Type} [DecidableEq α] (k : α) (m : List (α × β)) :
    List (α × β) :=
  m.filter (fun p => p.1 ≠ k)

/-- Configuration values read from the environment (server.js lines 42-52).
Only the fields that the verified endpoints consult are retained;
`concurrentTransforms` is included because line 51 parses it (the transcode
handler never reads it). -/
structure Config where
  chunkSizeMB : Int
  uploadExpiryHours : Int
  fileRetentionHours : Int
  concurrentTransforms : Int
deriving DecidableEq, Repr

/-- Upload session record created by `POST /api/v1/files/upload/init`
(server.js lines 117-128).  The opaque `metadata` field is omitted: no
endpoint inspects it. -/
structure UploadSession where
  uploadId : String
  filename : String
  totalSize : Int
  mimeType : String
  chunkSize : Int
  totalChunks : Int
  receivedChunks : List Int
  createdAt : Int
  expiresAt : Int
deriving DecidableEq, Repr

/-- Stored file record (server.js lines 225-235).  `content` stands for the
bytes written at `path`, so `fs.rm` of the directory is modelled by dropping
the record. -/
structure FileInfo where
  fileId : String
  filename : String
  content : Bytes
  size : Nat
  mimeType : String
  checksum : String
  createdAt : Int
  expiresAt : Int
deriving DecidableEq, Repr

/-- Job status values.  The source only ever assigns the strings
`'processing'`, `'completed'` and `'failed'` (server.js lines 661, 701,
707); `queued` is the fourth status named by the service's documentation
and is included so that statements about it can be expressed. -/
inductive JobStatus where
  | queued
  | processing
  | completed
  | failed
deriving DecidableEq, Repr

/-- Transcode job record (server.js lines 659-666 plus the fields added by
the `end`/`error` callbacks). -/
structure TransformJob where
  jobId : String
  status : JobStatus
  progress : Int
  startedAt : Int
  inputFileId : String
  outputFileId : Option String
  error : Option String
  completedAt : Option Int
deriving DecidableEq, Repr

/-- Whole service state: the three registries plus the chunk staging area,
keyed by `(uploadId, chunkIndex)`. -/
structure ServiceState where
  sessions : List (String × UploadSession)
  staged : List ((String × Int) × Bytes)
  files : List (String × FileInfo)
  jobs : List (String × TransformJob)
deriving DecidableEq, Repr

def emptyState : ServiceState := ⟨[], [], [], []⟩

/-- JavaScript `Math.ceil(a / b)` on integers, for `b ≠ 0` (for `b = 0` the
JS expression yields a non-finite number; the configuration default makes
that unreachable, and we return 0). -/
def jsCeilDiv (a b : Int) : Int :=
  if 0 < b then -((-a).ediv b)
  else if b < 0 then -(a.ediv (-b))
  else 0

/-- `Array.from({length: n}, (_, i) => i)` — the indices `0..n-1` (empty
when `n ≤ 0`). -/
def intRange (n : Int) : List Int :=
  (List.range n.toNat).map Int.ofNat

/-- `chunkSize || config.chunkSizeMB * 1024 * 1024` (server.js line 110):
an absent or zero (falsy) client value falls back to the configured
default. -/
def resolveChunkSize (cfg : Config) : Option Int → Int
  | some c => if c = 0 then cfg.chunkSizeMB * 1024 * 1024 else c
  | none => cfg.chunkSizeMB * 1024 * 1024

/-- Response body of `POST /api/v1/files/upload/init` (server.js lines
132-137). -/
structure InitResponse where
  uploadId : String
  chunkSize : Int
  totalChunks : Int
  expiresAt : Int
deriving DecidableEq, Repr

/-- `POST /api/v1/files/upload/init` (server.js lines 106-141).  The handler
performs no validation of `totalSize`: it computes
`totalChunks = Math.ceil(totalSize / actualChunkSize)`, registers the
session and answers 200.  `mimeType` resolution
(`mimeType || mime.lookup(filename) || 'application/octet-stream'`) is
abstracted by the `mimeOf` parameter. -/
def initUpload (cfg : Config) (mimeOf : String → Option String)
    (uploadId : String) (now : Int) (filename : String) (totalSize : Int)
    (mimeType : Option String) (chunkSize : Option Int) (st : ServiceState) :
    InitResponse × ServiceState :=
  let actualChunkSize := resolveChunkSize cfg chunkSize
  let totalChunks := jsCeilDiv totalSize actualChunkSize
  let session : UploadSession :=
    { uploadId := uploadId
      filename := filename
      totalSize := totalSize
      mimeType := ((mimeType.orElse fun _ => mimeOf filename).getD
        "application/octet-stream")
      chunkSize := actualChunkSize
      totalChunks := totalChunks
      receivedChunks := []
      createdAt := now
      expiresAt := now + cfg.uploadExpiryHours * 3600000 }
  (⟨uploadId, actualChunkSize, totalChunks,
      now + cfg.uploadExpiryHours * 3600000⟩,
    { st with sessions := setKey uploadId session st.sessions })

/-- Outcome of `PUT /api/v1/files/upload/:uploadId/chunk/:chunkIndex`. -/
inductive PutResult where
  | notFound
  | ok (chunkIndex : Int) (bytesReceived : Nat) (checksum : String)
deriving DecidableEq, Repr

/-- Ascending numeric sort, `receivedChunks.sort((a, b) => a - b)`. -/
def sortInts (l : List Int) : List Int :=
  l.insertionSort (· ≤ ·)

/-- `PUT /api/v1/files/upload/:uploadId/chunk/:chunkIndex` (server.js lines
144-174).  There is no check that `chunkIndex` lies in
`[0, totalChunks)`: the body is written to
`chunks/<uploadId>/chunk_<index>` and the index is pushed into
`receivedChunks` (then sorted) whenever it is not already present. -/
def putChunk (hash : Bytes → String) (uploadId : String) (index : Int)
    (body : Bytes) (st : ServiceState) : PutResult × ServiceState :=
  match lookupKey uploadId st.sessions with
  | none => (.notFound, st)
  | some session =>
    let staged := setKey (uploadId, index) body st.staged
    let checksum := hash body
    let received := sortInts (index :: session.receivedChunks)
    let session :=
      if index ∈ session.receivedChunks then session
      else { session with receivedChunks := received }
    (.ok index body.length checksum,
      { st with
          staged := staged
          sessions := setKey uploadId session st.sessions })

/-- Outcome of `POST /api/v1/files/upload/:uploadId/complete`.  `ioError i`
is the 500 response produced when `fs.readFile` of `chunk_<i>` rejects
inside the assembly loop (no such staged chunk). -/
inductive CompleteResult where
  | notFound
  | missingChunks (received : Nat) (expected : Int) (missing : List Int)
  | ioError (chunkIndex : Int)
  | ok (fileId : String) (size : Nat) (checksum : String)
deriving DecidableEq, Repr

/-- Sequential `fs.readFile` of `chunk_<i>` for each listed index; the first
missing chunk aborts the loop with its index. -/
def collectChunks (staged : List ((String × Int) × Bytes))
    (uploadId : String) : List Int → Except Int (List Bytes)
  | [] => .ok []
  | i :: is =>
    match lookupKey (uploadId, i) staged with
    | none => .error i
    | some b => (collectChunks staged uploadId is).map (b :: ·)

/-- `POST /api/v1/files/upload/:uploadId/complete` (server.js lines
177-252).  The handler destructures `checksums` from the body (line 180)
but never reads it again, so the argument is ignored.  Completion is gated
only on `receivedChunks.length !== totalChunks`; on the missing branch the
response carries the count received, the count expected and the indices of
`[0, totalChunks)` absent from `receivedChunks`.  Otherwise chunks
`0..totalChunks-1` are read in ascending index order, concatenated into the
new file and hashed; the staged chunks and the session are then deleted. -/
def complete (cfg : Config) (hash : Bytes → String) (fileId : String)
    (now : Int) (uploadId : String) (checksums : Option (List String))
    (st : ServiceState) : CompleteResult × ServiceState :=
  match lookupKey uploadId st.sessions with
  | none => (.notFound, st)
  | some session =>
    if (session.receivedChunks.length : Int) = session.totalChunks then
      match collectChunks st.staged uploadId (intRange session.totalChunks)
        with
      | .error i => (.ioError i, st)
      | .ok chunks =>
        let content := chunks.flatten
        let fileInfo : FileInfo :=
          { fileId := fileId
            filename := session.filename
            content := content
            size := content.length
            mimeType := session.mimeType
            checksum := hash content
            createdAt := now
            expiresAt := now + cfg.fileRetentionHours * 3600000 }
        (.ok fileId content.length (hash content),
          { st with
              files := setKey fileId fileInfo st.files
              staged := st.staged.filter (fun p => p.1.1 ≠ uploadId)
              sessions := eraseKey uploadId st.sessions })
    else
      (.missingChunks session.receivedChunks.length session.totalChunks
          ((intRange session.totalChunks).filter
            (fun i => i ∉ session.receivedChunks)),
        st)

/-- Outcome of `GET /api/v1/files/download/:fileId` (server.js lines
295-331).  `full` is the 200 response; `ranged` is the 206 response with
its `Content-Range` components (`rangeStart-rangeEnd/total`) and
`Content-Length` exactly as the handler computes them.  `body = none`
models the stream constructor `fsSync.createReadStream(path, {start, end})`
throwing (Node requires `0 ≤ start ≤ end`), in which case no bytes are
delivered. -/
inductive DownloadResult where
  | notFound
  | full (contentLength : Nat) (body : Bytes)
  | ranged (rangeStart rangeEnd total contentLength : Int) (body : Option Bytes)
deriving DecidableEq, Repr

/-- Bytes delivered by `createReadStream(path, {start, end})`: positions
`start..end` of the file, truncated at EOF; the constructor throws unless
`0 ≤ start ≤ end`. -/
def readStreamBytes (content : Bytes) (s e : Int) : Option Bytes :=
  if 0 ≤ s ∧ s ≤ e then
    some ((content.drop s.toNat).take (e - s + 1).toNat)
  else
    none

/-- `GET /api/v1/files/download/:fileId` (server.js lines 295-331).  With a
`Range: bytes=start-end?` header the handler takes `start` as parsed,
defaults `end` to `size - 1` only when absent, and answers 206 with
`Content-Range: bytes start-end/size` and `Content-Length: end - start + 1`
without any validation or clamping of either bound. -/
def streamRange (fileId : String) (range : Option (Int × Option Int))
    (st : ServiceState) : DownloadResult :=
  match lookupKey fileId st.files with
  | none => .notFound
  | some fileInfo =>
    match range with
    | none => .full fileInfo.size fileInfo.content
    | some (start, endPart) =>
      let endIdx := endPart.getD ((fileInfo.size : Int) - 1)
      let chunkSize := endIdx - start + 1
      .ranged start endIdx (fileInfo.size : Int) chunkSize
        (readStreamBytes fileInfo.content start endIdx)

/-- Response of `POST /api/v1/files/transform/transcode`. -/
inductive SubmitResult where
  | notFound
  | accepted (jobId : String) (status : JobStatus)
deriving DecidableEq, Repr

/-- `POST /api/v1/files/transform/transcode` (server.js lines 642-720).
After resolving the input file the handler unconditionally registers
`{ status: 'processing', progress: 0, ... }` and spawns ffmpeg: the
`cfg.concurrentTransforms` ceiling is never consulted and no job is ever
recorded as `queued`. -/
def submitTranscode (cfg : Config) (jobId : String) (now : Int)
    (fileId : String) (st : ServiceState) : SubmitResult × ServiceState :=
  match lookupKey fileId st.files with
  | none => (.notFound, st)
  | some _ =>
    let job : TransformJob :=
      { jobId := jobId
        status := .processing
        progress := 0
        startedAt := now
        inputFileId := fileId
        outputFileId := none
        error := none
        completedAt := none }
    (.accepted jobId .processing,
      { st with jobs := setKey jobId job st.jobs })

/-- Count of `processing` jobs, as the `/health` endpoint's `pendingJobs`
metric computes it (server.js line 895). -/
def countProcessing (jobs : List (String × TransformJob)) : Nat :=
  (jobs.filter (fun p => p.2.status = .processing)).length

/-- Callback events delivered by fluent-ffmpeg to the handlers installed at
server.js lines 682-710: `progress` carries `progress.percent` (possibly
absent), and `ended` / `errored` are the terminal callbacks. -/
inductive FfmpegEvent where
  | progress (percent : Option Int)
  | ended (outputFileId : String) (now : Int)
  | errored (msg : String)
deriving DecidableEq, Repr

/-- Mutation each callback applies to the job record (server.js lines
682-709).  `progress` assigns `Math.round(progress.percent || 0)` with no
monotonicity guard (the rounding of the externally supplied float is left
to the event's integer payload); `ended` also registers the output file in
the `files` registry, which no claim consults and is not repeated here. -/
def applyEvent (j : TransformJob) : FfmpegEvent → TransformJob
  | .progress p => { j with progress := p.getD 0 }
  | .ended outputFileId now =>
    { j with
        status := .completed
        progress := 100
        outputFileId := some outputFileId
        completedAt := some now }
  | .errored msg => { j with status := .failed, error := some msg }

/-- Job record after a sequence of ffmpeg callbacks. -/
def runJob (j : TransformJob) (events : List FfmpegEvent) : TransformJob :=
  events.foldl applyEvent j

/-- Outcome of `DELETE /api/v1/files/:fileId`. -/
inductive DeleteResult where
  | notFound
  | success
deriving DecidableEq, Repr

/-- `DELETE /api/v1/files/:fileId` (server.js lines 870-886): if the record
exists, remove the backing storage directory and the registry entry and
answer `{success: true}`.  Nothing inspects `transformJobs`, so files
referenced by queued/processing jobs are deleted like any other. -/
def deleteFile (fileId : String) (st : ServiceState) :
    DeleteResult × ServiceState :=
  match lookupKey fileId st.files with
  | none => (.notFound, st)
  | some _ => (.success, { st with files := eraseKey fileId st.files })

/-- State after a sequence of `PutChunk` requests
`(uploadId, chunkIndex, body)`, responses discarded. -/
def applyPuts (hash : Bytes → String)
    (ops : List (String × Int × Bytes)) (st : ServiceState) : ServiceState :=
  ops.foldl (fun acc op => (putChunk hash op.1 op.2.1 op.2.2 acc).2) st

/-- Session record with `receivedChunks` blanked, used to state that an
operation leaves every other field unchanged. -/
def stripRC (s : UploadSession) : UploadSession :=
  { s with receivedChunks := [] }

/-- Per-session well-formedness maintained by the upload endpoints:
the registry key matches the record, `receivedChunks` is sorted and
duplicate-free, every recorded index has a staged chunk, and every staged
chunk of this upload is recorded. -/
def SessionOK (st : ServiceState) (uid : String) (s : UploadSession) : Prop :=
  s.uploadId = uid ∧
  s.receivedChunks.Sorted (· ≤ ·) ∧
  s.receivedChunks.Nodup ∧
  (∀ i ∈ s.receivedChunks, lookupKey (uid, i) st.staged ≠ none) ∧
  (∀ p ∈ st.staged, p.1.1 = uid → p.1.2 ∈ s.receivedChunks)

/-- Global invariant: session keys are unique and every session is
well-formed. -/
def Inv (st : ServiceState) : Prop :=
  (st.sessions.map Prod.fst).Nodup ∧
  ∀ p ∈ st.sessions, SessionOK st p.1 p.2

instance (st : ServiceState) : Decidable (Inv st) := by
  unfold Inv SessionOK
  infer_instance

/-- Abstract digest used when the model is run on concrete inputs. -/
def demoHash : Bytes → String := fun _ => "d"

/-- Configuration with the source defaults (server.js lines 42-52). -/
def demoCfg : Config :=
  { chunkSizeMB := 10
    uploadExpiryHours := 24
    fileRetentionHours := 72
    concurrentTransforms := 2 }

/-- Configuration with `CONCURRENT_TRANSFORMS=1`. -/
def cfgCeil1 : Config := { demoCfg with concurrentTransforms := 1 }

/-- First ten bytes of the demo upload. -/
def bytesA : Bytes := [1, 2, 3, 4, 5, 6, 7, 8, 9, 10]

/-- Second ten bytes of the demo upload. -/
def bytesB : Bytes := [11, 12, 13, 14, 15, 16, 17, 18, 19, 20]

/-- State after `InitUpload(filename: "a.bin", totalSize: 20, chunkSize:
10)`: the session `u1` has `totalChunks = 2`. -/
def stInit : ServiceState :=
  (initUpload demoCfg (fun _ => none) "u1" 0 "a.bin" 20 none (some 10)
    emptyState).2

/-- State after additionally `PutChunk("u1", 0, bytesA)`. -/
def stPut0 : ServiceState := (putChunk demoHash "u1" 0 bytesA stInit).2

/-- State after both in-range chunks have been uploaded. -/
def stFull : ServiceState := (putChunk demoHash "u1" 1 bytesB stPut0).2

/-- State where the second `PutChunk` used the out-of-range index 5, so
`receivedChunks = [0, 5]` has the length `totalChunks = 2` expects. -/
def stOutOfRange : ServiceState := (putChunk demoHash "u1" 5 [9] stPut0).2

/-- State after the demo upload has completed into file `f1`. -/
def stFile : ServiceState :=
  (complete demoCfg demoHash "f1" 0 "u1" none stFull).2

/-- The session record registered by the demo `InitUpload`. -/
def sInit0 : UploadSession :=
  { uploadId := "u1"
    filename := "a.bin"
    totalSize := 20
    mimeType := "application/octet-stream"
    chunkSize := 10
    totalChunks := 2
    receivedChunks := []
    createdAt := 0
    expiresAt := 86400000 }

/-- The demo session once both in-range chunks are recorded. -/
def sFull : UploadSession := { sInit0 with receivedChunks := [0, 1] }

/-- The file record produced by completing the demo upload. -/
def fi1 : FileInfo :=
  { fileId := "f1"
    filename := "a.bin"
    content := bytesA ++ bytesB
    size := 20
    mimeType := "application/octet-stream"
    checksum := "d"
    createdAt := 0
    expiresAt := 259200000 }

/-- Job record created by submitting a transcode of `f1` at time 0. -/
def job1 : TransformJob :=
  { jobId := "j1"
    status := .processing
    progress := 0
    startedAt := 0
    inputFileId := "f1"
    outputFileId := none
    error := none
    completedAt := none }

/-- State after one transcode submission under `CONCURRENT_TRANSFORMS=1`. -/
def stJob1 : ServiceState := (submitTranscode cfgCeil1 "j1" 0 "f1" stFile).2

/-- State after a second transcode submission while the first is still
`processing`. -/
def stJob2 : ServiceState := (submitTranscode cfgCeil1 "j2" 0 "f1" stJob1).2

/-- Value `job.progress` holds after a run of pure progress callbacks:
the last reported percent (`|| 0` when absent), or the previous value when
no callback fired. -/
def lastProgress (j : TransformJob) (ps : List (Option Int)) : Int :=
  match ps.getLast? with
  | none => j.progress
  | some p => p.getD 0

section AssocLemmas

variable {α β : Type} [DecidableEq α]

theorem lookupKey_setKey_self (k : α) (v : β) (m : List (α × β)) :
    lookupKey k (setKey k v m) = some v := by
  simp [setKey, lookupKey]

theorem lookupKey_cons (p : α × β) (ps : List (α × β)) (k : α) :
    lookupKey k (p :: ps) = if p.1 = k then some p.2 else lookupKey k ps :=
  rfl

theorem lookupKey_filter_ne (k k' : α) (m : List (α × β)) (h : k' ≠ k) :
    lookupKey k' (m.filter (fun p => p.1 ≠ k)) = lookupKey k' m := by
  induction m with
  | nil => rfl
  | cons p ps ih =>
    rw [List.filter_cons]
    by_cases hpk : p.1 = k
    · rw [if_neg (by simp [hpk]), ih, lookupKey_cons,
        if_neg (by rw [hpk]; exact Ne.symm h)]
    · rw [if_pos (by simp [hpk]), lookupKey_cons, lookupKey_cons, ih]

theorem lookupKey_setKey_ne (k k' : α) (v : β) (m : List (α × β))
    (h : k' ≠ k) : lookupKey k' (setKey k v m) = lookupKey k' m := by
  have hstep : lookupKey k' (setKey k v m) =
      lookupKey k' (m.filter (fun p => p.1 ≠ k)) := by
    simp [setKey, lookupKey, Ne.symm h]
  rw [hstep, lookupKey_filter_ne k k' m h]

theorem lookupKey_eraseKey_self (k : α) (m : List (α × β)) :
    lookupKey k (eraseKey k m) = none := by
  induction m with
  | nil => rfl
  | cons p ps ih =>
    by_cases hpk : p.1 = k
    · simpa [eraseKey, List.filter_cons, hpk] using ih
    · simpa [eraseKey, List.filter_cons, hpk, lookupKey] using ih

theorem lookupKey_eraseKey_ne (k k' : α) (m : List (α × β)) (h : k' ≠ k) :
    lookupKey k' (eraseKey k m) = lookupKey k' m := by
  rw [eraseKey, lookupKey_filter_ne k k' m h]

theorem mem_of_lookupKey_eq_some {k : α} {v : β} {m : List (α × β)}
    (h : lookupKey k m = some v) : (k, v) ∈ m := by
  induction m with
  | nil => simp [lookupKey] at h
  | cons p ps ih =>
    by_cases hpk : p.1 = k
    · simp only [lookupKey, hpk, if_pos] at h
      have hp : p = (k, v) := by
        cases p
        simp_all
      rw [← hp]
      exact List.mem_cons_self p ps
    · simp only [lookupKey, hpk, if_neg, not_false_iff] at h
      exact List.mem_cons_of_mem _ (ih h)

theorem lookupKey_ne_none_of_mem {k : α} {v : β} {m : List (α × β)}
    (h : (k, v) ∈ m) : lookupKey k m ≠ none := by
  induction m with
  | nil => simp at h
  | cons p ps ih =>
    by_cases hpk : p.1 = k
    · simp [lookupKey, hpk]
    · rcases List.mem_cons.mp h with h1 | h1
      · cases h1; simp at hpk
      · simpa [lookupKey, hpk] using ih h1

theorem lookupKey_ne_none_iff (k : α) (m : List (α × β)) :
    lookupKey k m ≠ none ↔ ∃ v, (k, v) ∈ m := by
  constructor
  · intro h
    cases hl : lookupKey k m with
    | none => exact absurd hl h
    | some v => exact ⟨v, mem_of_lookupKey_eq_some hl⟩
  · rintro ⟨v, hv⟩
    exact lookupKey_ne_none_of_mem hv

theorem mem_setKey {p : α × β} {k : α} {v : β} {m : List (α × β)}
    (h : p ∈ setKey k v m) : p = (k, v) ∨ (p ∈ m ∧ p.1 ≠ k) := by
  rcases List.mem_cons.mp h with h1 | h1
  · exact Or.inl h1
  · right
    have := List.of_mem_filter h1
    exact ⟨List.mem_of_mem_filter h1, by simpa using this⟩

theorem keys_setKey_nodup (k : α) (v : β) (m : List (α × β))
    (h : (m.map Prod.fst).Nodup) :
    ((setKey k v m).map Prod.fst).Nodup := by
  rw [setKey, List.map_cons, List.nodup_cons]
  constructor
  · intro hk
    rcases List.mem_map.mp hk with ⟨p, hp, hpk⟩
    have := List.of_mem_filter hp
    simp [hpk] at this
  · exact h.sublist ((List.filter_sublist m).map Prod.fst)

theorem lookupKey_ext (a b : List (α × β))
    (h1 : ∀ p ∈ a, lookupKey p.1 b = lookupKey p.1 a)
    (h2 : ∀ p ∈ b, lookupKey p.1 a = lookupKey p.1 b) (k : α) :
    lookupKey k a = lookupKey k b := by
  cases ha : lookupKey k a with
  | some v =>
    have := h1 (k, v) (mem_of_lookupKey_eq_some ha)
    simp only at this
    rw [this, ha]
  | none =>
    cases hb : lookupKey k b with
    | some w =>
      have hcontra := h2 (k, w) (mem_of_lookupKey_eq_some hb)
      simp only at hcontra
      rw [ha, hb] at hcontra
      simp at hcontra
    | none => rfl

end AssocLemmas

theorem mem_intRange {i n : Int} : i ∈ intRange n ↔ 0 ≤ i ∧ i < n := by
  unfold intRange
  simp only [List.mem_map, List.mem_range, Int.ofNat_eq_coe]
  constructor
  · rintro ⟨m, hm, rfl⟩
    omega
  · rintro ⟨h0, hn⟩
    exact ⟨i.toNat, by omega, by omega⟩

theorem intRange_nodup (n : Int) : (intRange n).Nodup := by
  refine (List.nodup_range _).map ?_
  intro a b h
  exact Int.ofNat.inj h

theorem intRange_length (n : Int) : (intRange n).length = n.toNat := by
  simp [intRange]

theorem jsCeilDiv_spec (a b : Int) (hb : 0 < b) :
    b * (jsCeilDiv a b - 1) < a ∧ a ≤ b * jsCeilDiv a b := by
  have hdm := Int.ediv_add_emod (-a) b
  have h0 : 0 ≤ (-a) % b := Int.emod_nonneg _ (by omega)
  have h1 : (-a) % b < b := Int.emod_lt_of_pos _ hb
  have hd : (-a).ediv b = -a / b := rfl
  unfold jsCeilDiv
  rw [if_pos hb, hd]
  constructor <;> nlinarith [hdm, h0, h1]

theorem collectChunks_ok_iff (staged : List ((String × Int) × Bytes))
    (uploadId : String) (is : List Int) :
    (∃ chunks, collectChunks staged uploadId is = .ok chunks) ↔
      ∀ i ∈ is, lookupKey (uploadId, i) staged ≠ none := by
  induction is with
  | nil => simp [collectChunks]
  | cons i is ih =>
    constructor
    · rintro ⟨chunks, hc⟩
      intro j hj
      rcases List.mem_cons.mp hj with rfl | hj
      · intro hnone
        simp [collectChunks, hnone] at hc
      · cases hl : lookupKey (uploadId, i) staged with
        | none => simp [collectChunks, hl] at hc
        | some b =>
          simp only [collectChunks, hl] at hc
          cases hrest : collectChunks staged uploadId is with
          | error e => simp [hrest, Except.map] at hc
          | ok cs => exact (ih.mp ⟨cs, hrest⟩) j hj
    · intro h
      have hi := h i (List.mem_cons_self i is)
      cases hl : lookupKey (uploadId, i) staged with
      | none => exact absurd hl hi
      | some b =>
        rcases ih.mpr (fun j hj => h j (List.mem_cons_of_mem _ hj)) with
          ⟨cs, hcs⟩
        exact ⟨b :: cs, by simp [collectChunks, hl, hcs, Except.map]⟩

theorem collectChunks_congr (a b : List ((String × Int) × Bytes))
    (uploadId : String) (is : List Int)
    (h : ∀ i ∈ is, lookupKey (uploadId, i) a = lookupKey (uploadId, i) b) :
    collectChunks a uploadId is = collectChunks b uploadId is := by
  induction is with
  | nil => rfl
  | cons i is ih =>
    have hi := h i (List.mem_cons_self i is)
    have hrest := ih (fun j hj => h j (List.mem_cons_of_mem _ hj))
    simp [collectChunks, hi, hrest]

theorem mem_sortInts {j : Int} {l : List Int} : j ∈ sortInts l ↔ j ∈ l :=
  (List.perm_insertionSort _ l).mem_iff

theorem sortInts_sorted (l : List Int) : (sortInts l).Sorted (· ≤ ·) :=
  List.sorted_insertionSort _ l

theorem sortInts_nodup {l : List Int} (h : l.Nodup) : (sortInts l).Nodup :=
  ((List.perm_insertionSort _ l).nodup_iff).mpr h

theorem putChunk_absent {hash : Bytes → String} {uid : String} {i : Int}
    {b : Bytes} {st : ServiceState}
    (h : lookupKey uid st.sessions = none) :
    putChunk hash uid i b st = (.notFound, st) := by
  unfold putChunk
  rw [h]

theorem putChunk_present {hash : Bytes → String} {uid : String} {i : Int}
    {b : Bytes} {st : ServiceState} {s : UploadSession}
    (h : lookupKey uid st.sessions = some s) :
    putChunk hash uid i b st =
      (.ok i b.length (hash b),
        { st with
            staged := setKey (uid, i) b st.staged
            sessions := setKey uid
              (if i ∈ s.receivedChunks then s
               else { s with
                  receivedChunks := sortInts (i :: s.receivedChunks) })
              st.sessions }) := by
  unfold putChunk
  rw [h]

theorem complete_absent {cfg : Config} {hash : Bytes → String}
    {fid : String} {now : Int} {uid : String}
    {cks : Option (List String)} {st : ServiceState}
    (h : lookupKey uid st.sessions = none) :
    complete cfg hash fid now uid cks st = (.notFound, st) := by
  unfold complete
  rw [h]

theorem complete_missing {cfg : Config} {hash : Bytes → String}
    {fid : String} {now : Int} {uid : String}
    {cks : Option (List String)} {st : ServiceState} {s : UploadSession}
    (h : lookupKey uid st.sessions = some s)
    (hlen : ¬((s.receivedChunks.length : Int) = s.totalChunks)) :
    complete cfg hash fid now uid cks st =
      (.missingChunks s.receivedChunks.length s.totalChunks
        ((intRange s.totalChunks).filter
          (fun i => i ∉ s.receivedChunks)), st) := by
  unfold complete
  rw [h]
  simp only [hlen, if_false]

theorem complete_ioErr {cfg : Config} {hash : Bytes → String}
    {fid : String} {now : Int} {uid : String}
    {cks : Option (List String)} {st : ServiceState} {s : UploadSession}
    {i : Int} (h : lookupKey uid st.sessions = some s)
    (hlen : (s.receivedChunks.length : Int) = s.totalChunks)
    (hc : collectChunks st.staged uid (intRange s.totalChunks) = .error i) :
    complete cfg hash fid now uid cks st = (.ioError i, st) := by
  unfold complete
  rw [h]
  simp only [hlen, if_true, hc]

theorem complete_ok {cfg : Config} {hash : Bytes → String} {fid : String}
    {now : Int} {uid : String} {cks : Option (List String)}
    {st : ServiceState} {s : UploadSession} {chunks : List Bytes}
    (h : lookupKey uid st.sessions = some s)
    (hlen : (s.receivedChunks.length : Int) = s.totalChunks)
    (hc : collectChunks st.staged uid (intRange s.totalChunks) =
      .ok chunks) :
    complete cfg hash fid now uid cks st =
      (.ok fid chunks.flatten.length (hash chunks.flatten),
        { st with
            files := setKey fid
              { fileId := fid
                filename := s.filename
                content := chunks.flatten
                size := chunks.flatten.length
                mimeType := s.mimeType
                checksum := hash chunks.flatten
                createdAt := now
                expiresAt := now + cfg.fileRetentionHours * 3600000 }
              st.files
            staged := st.staged.filter (fun p => p.1.1 ≠ uid)
            sessions := eraseKey uid st.sessions }) := by
  unfold complete
  rw [h]
  simp only [hlen, if_true, hc]

theorem putChunk_inv (hash : Bytes → String) (uid : String) (i : Int)
    (b : Bytes) (st : ServiceState) (h : Inv st) :
    Inv (putChunk hash uid i b st).2 := by
  obtain ⟨hkeys, hsess⟩ := h
  cases hl : lookupKey uid st.sessions with
  | none => rw [putChunk_absent hl]; exact ⟨hkeys, hsess⟩
  | some s =>
    rw [putChunk_present hl]
    have hsOK : SessionOK st uid s := by
      have hmem := mem_of_lookupKey_eq_some hl
      simpa using hsess (uid, s) hmem
    obtain ⟨hid, hsort, hnd, hrc_staged, hstaged_rc⟩ := hsOK
    constructor
    · exact keys_setKey_nodup _ _ _ hkeys
    · intro p hp
      rcases mem_setKey hp with rfl | ⟨hpmem, hpne⟩
      · -- the updated session for `uid`
        refine ⟨?_, ?_, ?_, ?_, ?_⟩
        · by_cases hin : i ∈ s.receivedChunks <;> simp [hin, hid]
        · by_cases hin : i ∈ s.receivedChunks
          · simpa [hin] using hsort
          · simpa [hin] using sortInts_sorted (i :: s.receivedChunks)
        · by_cases hin : i ∈ s.receivedChunks
          · simpa [hin] using hnd
          · simpa [hin] using
              sortInts_nodup (List.nodup_cons.mpr ⟨hin, hnd⟩)
        · intro j hj
          by_cases hji : j = i
          · subst hji
            simp [lookupKey_setKey_self]
          · have hj' : j ∈ s.receivedChunks := by
              by_cases hin : i ∈ s.receivedChunks
              · simpa [hin] using hj
              · simp only [hin, if_false] at hj
                rcases List.mem_cons.mp (mem_sortInts.mp hj) with h1 | h1
                · exact absurd h1 hji
                · exact h1
            rw [lookupKey_setKey_ne _ _ _ _ (by simp [hji])]
            exact hrc_staged j hj'
        · intro q hq hq1
          rcases mem_setKey hq with rfl | ⟨hqmem, hqne⟩
          · by_cases hin : i ∈ s.receivedChunks
            · simpa [hin] using hin
            · simp only [hin, if_false]
              exact mem_sortInts.mpr (List.mem_cons_self _ _)
          · have := hstaged_rc q hqmem hq1
            by_cases hin : i ∈ s.receivedChunks
            · simpa [hin] using this
            · simp only [hin, if_false]
              exact mem_sortInts.mpr (List.mem_cons_of_mem _ this)
      · -- untouched sessions
        have hOK : SessionOK st p.1 p.2 := hsess p hpmem
        obtain ⟨pid, psort, pnd, prc, pst⟩ := hOK
        refine ⟨pid, psort, pnd, ?_, ?_⟩
        · intro j hj
          rw [lookupKey_setKey_ne _ _ _ _ (by simp [hpne])]
          exact prc j hj
        · intro q hq hq1
          rcases mem_setKey hq with rfl | ⟨hqmem, hqne⟩
          · exact absurd hq1 (fun he => hpne he.symm)
          · exact pst q hqmem hq1

theorem applyPuts_inv (hash : Bytes → String)
    (ops : List (String × Int × Bytes)) (st : ServiceState) (h : Inv st) :
    Inv (applyPuts hash ops st) := by
  induction ops generalizing st with
  | nil => exact h
  | cons op ops ih =>
    exact ih _ (putChunk_inv hash op.1 op.2.1 op.2.2 st h)

theorem eq_of_stripRC {s t : UploadSession} (h1 : stripRC s = stripRC t)
    (h2 : s.receivedChunks = t.receivedChunks) : s = t := by
  cases s
  cases t
  simp_all [stripRC]

theorem putChunk_session_statics (hash : Bytes → String) (uid : String)
    (i : Int) (b : Bytes) (st : ServiceState) (uid' : String) :
    (lookupKey uid' (putChunk hash uid i b st).2.sessions).map stripRC =
      (lookupKey uid' st.sessions).map stripRC := by
  cases hl : lookupKey uid st.sessions with
  | none => rw [putChunk_absent hl]
  | some s =>
    rw [putChunk_present hl]
    by_cases huid : uid' = uid
    · subst huid
      simp only [lookupKey_setKey_self, hl]
      by_cases hin : i ∈ s.receivedChunks <;> simp [hin, stripRC]
    · simp only
      rw [lookupKey_setKey_ne _ _ _ _ huid]

theorem applyPuts_session_statics (hash : Bytes → String)
    (ops : List (String × Int × Bytes)) (st : ServiceState)
    (uid' : String) :
    (lookupKey uid' (applyPuts hash ops st).sessions).map stripRC =
      (lookupKey uid' st.sessions).map stripRC := by
  induction ops generalizing st with
  | nil => rfl
  | cons op ops ih =>
    exact (ih _).trans (putChunk_session_statics hash op.1 op.2.1 op.2.2
      st uid')

/-- C5 (counterexample): `InitUpload` with `totalSize = 0` does not fail
with `ValidationError` — it answers 200 with `totalChunks = 0` and
registers the session. -/
theorem initUpload_nonpositive_cex :
    (initUpload demoCfg (fun _ => none) "u1" 0 "a.bin" 0 none none
        emptyState).1 = ⟨"u1", 10485760, 0, 86400000⟩ ∧
    lookupKey "u1" (initUpload demoCfg (fun _ => none) "u1" 0 "a.bin" 0
        none none emptyState).2.sessions ≠ none := by
  decide

/-- C5 (amended): `InitUpload` performs no validation at all.  For every
request — `totalSize` non-positive included — it registers a fresh session
and returns the uploadId, the resolved chunk size (client value unless
falsy, else the configured default), `totalChunks = ceil(totalSize /
chunkSize)` and the expiry timestamp. -/
theorem initUpload_no_validation (cfg : Config)
    (mimeOf : String → Option String) (uid : String) (now : Int)
    (fn : String) (ts : Int) (mt : Option String) (cs : Option Int)
    (st : ServiceState) :
    (initUpload cfg mimeOf uid now fn ts mt cs st).1 =
      ⟨uid, resolveChunkSize cfg cs, jsCeilDiv ts (resolveChunkSize cfg cs),
        now + cfg.uploadExpiryHours * 3600000⟩ ∧
    lookupKey uid (initUpload cfg mimeOf uid now fn ts mt cs st).2.sessions
      = some
        { uploadId := uid
          filename := fn
          totalSize := ts
          mimeType := ((mt.orElse fun _ => mimeOf fn).getD
            "application/octet-stream")
          chunkSize := resolveChunkSize cfg cs
          totalChunks := jsCeilDiv ts (resolveChunkSize cfg cs)
          receivedChunks := []
          createdAt := now
          expiresAt := now + cfg.uploadExpiryHours * 3600000 } := by
  exact ⟨rfl, lookupKey_setKey_self _ _ _⟩

/-- C4 (counterexample): on the demo session with `totalChunks = 2`,
`PutChunk` at index 7 answers 200 (no `ValidationError`) and records the
out-of-range index, so `receivedChunks ⊆ [0, totalChunks)` fails. -/
theorem putChunk_out_of_range_cex :
    (putChunk demoHash "u1" 7 [42] stInit).1 = .ok 7 1 "d" ∧
    ((lookupKey "u1" (putChunk demoHash "u1" 7 [42]
        stInit).2.sessions).map fun s => s.receivedChunks) = some [7] ∧
    ((lookupKey "u1" stInit.sessions).map fun s => s.totalChunks) =
      some 2 := by
  decide

/-- C4 (amended): for an existing session `PutChunk` accepts every integer
`chunkIndex` — there is no range check and no `ValidationError` — staging
the bytes under `(uploadId, chunkIndex)` and recording the index in
`receivedChunks`; consequently `receivedChunks ⊆ [0, totalChunks)` is not
an invariant of sessions. -/
theorem putChunk_accepts_any_index (hash : Bytes → String) (uid : String)
    (i : Int) (b : Bytes) (st : ServiceState) (s : UploadSession)
    (hs : lookupKey uid st.sessions = some s) :
    (putChunk hash uid i b st).1 = .ok i b.length (hash b) ∧
    ∃ s', lookupKey uid (putChunk hash uid i b st).2.sessions = some s' ∧
      i ∈ s'.receivedChunks ∧
      lookupKey (uid, i) (putChunk hash uid i b st).2.staged = some b := by
  rw [putChunk_present hs]
  refine ⟨rfl, _, lookupKey_setKey_self _ _ _, ?_,
    lookupKey_setKey_self _ _ _⟩
  by_cases hin : i ∈ s.receivedChunks
  · simpa [hin] using hin
  · simp only [hin, if_false]
    exact mem_sortInts.mpr (List.mem_cons_self _ _)

/-- C4 (witness): the amended theorem applied to the demo session at the
negative index `-3`, which is likewise accepted. -/
theorem putChunk_any_index_witness :
    lookupKey "u1" stInit.sessions = some sInit0 ∧
    (putChunk demoHash "u1" (-3) [5] stInit).1 = .ok (-3) 1 "d" := by
  exact ⟨by decide,
    (putChunk_accepts_any_index demoHash "u1" (-3) [5] stInit sInit0
      (by decide)).1⟩

/-- C2 (code bug): the `complete` handler destructures `checksums` from
the request body but never reads it, so supplied client checksums are
ignored: the result is identical with and without them, and in the
concrete scenario a checksum that does not match the stored digest `"d"`
still yields success — no `ChecksumMismatch` — and the session is deleted
rather than kept for retry. -/
theorem complete_ignores_client_checksums :
    (∀ (cfg : Config) (hash : Bytes → String) (fid : String) (now : Int)
      (uid : String) (cks : List String) (st : ServiceState),
      complete cfg hash fid now uid (some cks) st =
        complete cfg hash fid now uid none st) ∧
    (complete demoCfg demoHash "f1" 0 "u1" (some ["ffff", "0000"])
        stFull).1 = .ok "f1" 20 "d" ∧
    lookupKey "u1" (complete demoCfg demoHash "f1" 0 "u1"
        (some ["ffff", "0000"]) stFull).2.sessions = none := by
  exact ⟨fun _ _ _ _ _ _ _ => rfl, by decide, by decide⟩

/-- C3 (code bug): `config.concurrentTransforms` is parsed but never
consulted: a transcode submission never creates a `queued` job — the
record is inserted directly as `processing` — so with a ceiling of 1 two
submissions yield two simultaneously `processing` jobs. -/
theorem transcode_ignores_concurrency_ceiling :
    (submitTranscode cfgCeil1 "j1" 0 "f1" stFile).1 =
      .accepted "j1" .processing ∧
    (submitTranscode cfgCeil1 "j2" 0 "f1" stJob1).1 =
      .accepted "j2" .processing ∧
    countProcessing stJob2.jobs = 2 ∧
    cfgCeil1.concurrentTransforms = 1 ∧
    (∀ p ∈ stJob2.jobs, p.2.status ≠ .queued) ∧
    (∀ (cfg : Config) (jid : String) (now : Int) (fid : String)
      (st : ServiceState),
      (submitTranscode cfg jid now fid st).1 = .notFound ∨
      (submitTranscode cfg jid now fid st).1 =
        .accepted jid .processing) := by
  refine ⟨by decide, by decide, by decide, by decide, by decide, ?_⟩
  intro cfg jid now fid st
  unfold submitTranscode
  cases lookupKey fid st.files <;> simp

/-- C10: `DELETE /files/:fileId` consults only the `files` registry: when
the record exists it removes it (and its backing storage) and reports
success, even when a `processing` or `queued` transform job references the
file as its input; the `jobs` registry is neither checked nor changed. -/
theorem deleteFile_ignores_job_references (st : ServiceState)
    (fid : String) (v : FileInfo) (jid : String) (j : TransformJob)
    (hfile : lookupKey fid st.files = some v)
    (hjob : lookupKey jid st.jobs = some j)
    (href : j.inputFileId = fid)
    (hactive : j.status = .processing ∨ j.status = .queued) :
    deleteFile fid st = (.success,
      { st with files := eraseKey fid st.files }) ∧
    lookupKey fid (deleteFile fid st).2.files = none ∧
    (deleteFile fid st).2.jobs = st.jobs := by
  unfold deleteFile
  rw [hfile]
  exact ⟨rfl, by simpa using lookupKey_eraseKey_self fid st.files, rfl⟩

/-- C10 (witness): deleting `f1` while job `j1` is `processing` with
`inputFileId = "f1"` succeeds and removes the record. -/
theorem deleteFile_witness :
    lookupKey "f1" stJob2.files = some fi1 ∧
    lookupKey "j1" stJob2.jobs = some job1 ∧
    job1.inputFileId = "f1" ∧
    lookupKey "f1" (deleteFile "f1" stJob2).2.files = none := by
  refine ⟨by decide, by decide, by decide, ?_⟩
  exact (deleteFile_ignores_job_references stJob2 "f1" fi1 "j1" job1
    (by decide) (by decide) (by decide) (Or.inl (by decide))).2.1

/-- C7: re-uploading an already received chunk index answers 200, makes
the staged bytes equal the latest write, and leaves the session record —
in particular the `receivedChunks` list, where the index occurs exactly
once — completely unchanged. -/
theorem putChunk_rewrite_last_write_wins (hash : Bytes → String)
    (uid : String) (i : Int) (b : Bytes) (st : ServiceState)
    (s : UploadSession) (hInv : Inv st)
    (hs : lookupKey uid st.sessions = some s)
    (hmem : i ∈ s.receivedChunks) :
    (putChunk hash uid i b st).1 = .ok i b.length (hash b) ∧
    lookupKey (uid, i) (putChunk hash uid i b st).2.staged = some b ∧
    lookupKey uid (putChunk hash uid i b st).2.sessions = some s ∧
    s.receivedChunks.count i = 1 := by
  have hnd : s.receivedChunks.Nodup := by
    have hOK := hInv.2 (uid, s) (mem_of_lookupKey_eq_some hs)
    exact hOK.2.2.1
  rw [putChunk_present hs]
  refine ⟨rfl, lookupKey_setKey_self _ _ _, ?_, ?_⟩
  · simp only [hmem, if_pos]
    exact lookupKey_setKey_self _ _ _
  · exact List.count_eq_one_of_mem hnd hmem

/-- C7 (witness): a second write at index 1 of the demo session with fresh
bytes `[99]` is accepted, the staged bytes become `[99]`, and the session
record is unchanged. -/
theorem putChunk_rewrite_witness :
    Inv stFull ∧
    lookupKey "u1" stFull.sessions = some sFull ∧
    1 ∈ sFull.receivedChunks ∧
    lookupKey ("u1", 1) (putChunk demoHash "u1" 1 [99]
      stFull).2.staged = some [99] := by
  refine ⟨by decide, by decide, by decide, ?_⟩
  exact (putChunk_rewrite_last_write_wins demoHash "u1" 1 [99] stFull sFull
    (by decide) (by decide) (by decide)).2.1

/-- C8 (counterexample): on the 20-byte demo file, the range 100-50
(start > end) is not rejected with `InvalidRange`: the handler answers 206
with `Content-Range: bytes 100-50/20` and `Content-Length: -49` (the
stream constructor then errors); and the range 2-100 is not clamped to
`size - 1 = 19` in the response metadata. -/
theorem streamRange_invalid_range_cex :
    streamRange "f1" (some (100, some 50)) stFile =
      .ranged 100 50 20 (-49) none ∧
    streamRange "f1" (some (2, some 100)) stFile =
      .ranged 2 100 20 99 (some ((bytesA ++ bytesB).drop 2)) := by
  decide

/-- C8 (amended): the download handler validates and clamps nothing.  A
missing `rangeEnd` defaults to `size - 1`; otherwise both bounds are used
as given, the response being 206 with `Content-Range: start-end/size` and
`Content-Length: end - start + 1`; for `0 ≤ start ≤ end` the delivered
bytes are exactly positions `start..end` of the file truncated at EOF
(`start > end` instead errors in the stream, never as `InvalidRange`). -/
theorem streamRange_no_validation (st : ServiceState) (fid : String)
    (fi : FileInfo) (s e : Int) (hf : lookupKey fid st.files = some fi)
    (h0 : 0 ≤ s) (hse : s ≤ e) :
    streamRange fid (some (s, some e)) st =
      .ranged s e (fi.size : Int) (e - s + 1)
        (some ((fi.content.drop s.toNat).take (e - s + 1).toNat)) ∧
    streamRange fid (some (s, none)) st =
      .ranged s ((fi.size : Int) - 1) (fi.size : Int)
        ((fi.size : Int) - 1 - s + 1)
        (readStreamBytes fi.content s ((fi.size : Int) - 1)) := by
  unfold streamRange
  rw [hf]
  constructor
  · simp [readStreamBytes, h0, hse]
  · simp

/-- C8 (witness): the amended theorem applied to the demo file with the
in-bounds range 2-5. -/
theorem streamRange_witness :
    lookupKey "f1" stFile.files = some fi1 ∧
    streamRange "f1" (some (2, some 5)) stFile =
      .ranged 2 5 20 4 (some [3, 4, 5, 6]) := by
  refine ⟨by decide, ?_⟩
  have h := (streamRange_no_validation stFile "f1" fi1 2 5 (by decide)
    (by decide) (by decide)).1
  rw [h]
  decide

/-- C9 (counterexample): the progress callback assigns the reported value
with no monotonicity guard, so a report of 50 followed by a report of 30
makes `progress` decrease from 50 to 30 while the job is still
`processing` — refuting that progress is non-decreasing until a terminal
state. -/
theorem runJob_progress_decrease_cex :
    (runJob job1 [.progress (some 50)]).progress = 50 ∧
    (runJob job1 [.progress (some 50), .progress (some 30)]).progress =
      30 ∧
    (runJob job1 [.progress (some 50), .progress (some 30)]).status =
      .processing := by
  decide

/-- C9 (amended): under the ffmpeg callback contract — progress events
precede the single terminal callback — a trace of progress reports leaves
the status untouched and sets `progress` to the last reported value
(`|| 0` when absent), which is not constrained to be non-decreasing; the
`end` callback then fixes the record at
`completed / 100 / outputFileId / completedAt`, the `error` callback at
`failed` with the message, and with no events after the terminal callback
the record never changes again. -/
theorem runJob_terminal_and_last_progress :
    (∀ (j : TransformJob) (ps : List (Option Int)),
      runJob j (ps.map .progress) =
        { j with progress := lastProgress j ps }) ∧
    (∀ (j : TransformJob) (ps : List (Option Int)) (o : String) (t : Int),
      runJob j (ps.map .progress ++ [.ended o t]) =
        { j with
            status := .completed
            progress := 100
            outputFileId := some o
            completedAt := some t }) ∧
    (∀ (j : TransformJob) (ps : List (Option Int)) (m : String),
      runJob j (ps.map .progress ++ [.errored m]) =
        { j with
            progress := lastProgress j ps
            status := .failed
            error := some m }) := by
  have h1 : ∀ (ps : List (Option Int)) (j : TransformJob),
      runJob j (ps.map .progress) =
        { j with progress := lastProgress j ps } := by
    intro ps
    induction ps with
    | nil => intro j; rfl
    | cons p ps ih =>
      intro j
      have hstep : runJob j ((p :: ps).map .progress) =
          runJob { j with progress := p.getD 0 } (ps.map .progress) := rfl
      rw [hstep, ih]
      cases ps with
      | nil => rfl
      | cons q qs =>
        cases hl : (q :: qs).getLast? with
        | none => simp at hl
        | some r =>
          simp [lastProgress, List.getLast?_cons_cons, hl]
  refine ⟨fun j ps => h1 ps j, ?_, ?_⟩
  · intro j ps o t
    have hsplit : runJob j (ps.map .progress ++ [.ended o t]) =
        applyEvent (runJob j (ps.map .progress)) (.ended o t) := by
      simp [runJob, List.foldl_append]
    rw [hsplit, h1 ps j]
    rfl
  · intro j ps m
    have hsplit : runJob j (ps.map .progress ++ [.errored m]) =
        applyEvent (runJob j (ps.map .progress)) (.errored m) := by
      simp [runJob, List.foldl_append]
    rw [hsplit, h1 ps j]
    rfl

/-- C1 (counterexample): the completion gate compares only the COUNT of
received indices with `totalChunks`.  On the reachable session whose
`receivedChunks = [0, 5]` (index 5 is out of range, accepted by
`PutChunk`) with `totalChunks = 2`, coverage of `[0, 2)` fails — index 1
is missing — yet `Complete` does not answer `MissingChunks{missing: [1]}`:
the count check passes and the handler dies reading the absent staged
chunk 1 (a 500, `ioError 1`). -/
theorem complete_count_bypass_cex :
    ((lookupKey "u1" stOutOfRange.sessions).map
      fun s => s.receivedChunks) = some [0, 5] ∧
    ((lookupKey "u1" stOutOfRange.sessions).map
      fun s => s.totalChunks) = some 2 ∧
    complete demoCfg demoHash "f1" 0 "u1" none stOutOfRange =
      (.ioError 1, stOutOfRange) := by
  decide

/-- C1 (amended): `totalChunks = ceil(totalSize / chunkSize)` as computed
by `InitUpload`; `Complete` answers `MissingChunks` — carrying the count
received, the count expected and the indices of `[0, totalChunks)` not in
`receivedChunks` — exactly when `|receivedChunks| ≠ totalChunks`; and on
well-formed sessions (invariant `Inv`, non-negative `totalChunks`)
`Complete` succeeds if and only if `receivedChunks` covers exactly
`[0, totalChunks)`, the produced File's size being the length of the
concatenated staged chunks.  (When out-of-range indices pad the count to
equality, the failure is a 500 read error, not `MissingChunks`.) -/
theorem complete_coverage (cfg : Config) (hash : Bytes → String)
    (fid : String) (now : Int) (uid : String) (cks : Option (List String))
    (st : ServiceState) (s : UploadSession) (hInv : Inv st)
    (hs : lookupKey uid st.sessions = some s)
    (hn : 0 ≤ s.totalChunks) :
    (∀ a b : Int, 0 < b →
      b * (jsCeilDiv a b - 1) < a ∧ a ≤ b * jsCeilDiv a b) ∧
    (∀ (cfg' : Config) (mimeOf : String → Option String) (uid' : String)
      (now' : Int) (fn : String) (ts : Int) (mt : Option String)
      (cs : Option Int) (st'' : ServiceState),
      (initUpload cfg' mimeOf uid' now' fn ts mt cs st'').1.totalChunks =
        jsCeilDiv ts (resolveChunkSize cfg' cs)) ∧
    (¬((s.receivedChunks.length : Int) = s.totalChunks) →
      complete cfg hash fid now uid cks st =
        (.missingChunks s.receivedChunks.length s.totalChunks
          ((intRange s.totalChunks).filter
            (fun i => i ∉ s.receivedChunks)), st)) ∧
    ((∃ sz ck st', complete cfg hash fid now uid cks st =
        (.ok fid sz ck, st')) ↔
      (∀ i : Int, i ∈ s.receivedChunks ↔ 0 ≤ i ∧ i < s.totalChunks)) ∧
    (∀ sz ck st', complete cfg hash fid now uid cks st =
        (.ok fid sz ck, st') →
      ∃ chunks, collectChunks st.staged uid (intRange s.totalChunks) =
          .ok chunks ∧
        sz = chunks.flatten.length ∧
        (lookupKey fid st'.files).map (fun f => f.size) =
          some chunks.flatten.length) := by
  have hOK : SessionOK st uid s :=
    hInv.2 (uid, s) (mem_of_lookupKey_eq_some hs)
  obtain ⟨hid, hsort, hnd, hrc_st, hst_rc⟩ := hOK
  refine ⟨fun a b hb => jsCeilDiv_spec a b hb,
    fun _ _ _ _ _ _ _ _ _ => rfl,
    fun hlen => complete_missing hs hlen, ?_, ?_⟩
  · constructor
    · rintro ⟨sz, ck, st', heq⟩
      by_cases hlen : (s.receivedChunks.length : Int) = s.totalChunks
      · cases hcol : collectChunks st.staged uid (intRange s.totalChunks)
          with
        | error i =>
          rw [complete_ioErr hs hlen hcol] at heq
          simp at heq
        | ok chunks =>
          have hsub : intRange s.totalChunks ⊆ s.receivedChunks := by
            intro i hi
            have hne := ((collectChunks_ok_iff st.staged uid
              (intRange s.totalChunks)).mp ⟨chunks, hcol⟩) i hi
            rcases (lookupKey_ne_none_iff _ _).mp hne with ⟨v, hv⟩
            exact hst_rc ((uid, i), v) hv rfl
          have hlen' : s.receivedChunks.length ≤
              (intRange s.totalChunks).length := by
            rw [intRange_length]
            omega
          have hperm : (intRange s.totalChunks).Perm s.receivedChunks :=
            ((intRange_nodup _).subperm hsub).perm_of_length_le hlen'
          intro i
          rw [← mem_intRange (n := s.totalChunks)]
          exact hperm.mem_iff.symm
      · rw [complete_missing hs hlen] at heq
        simp at heq
    · intro hcov
      have hperm : s.receivedChunks.Perm (intRange s.totalChunks) :=
        (List.perm_ext_iff_of_nodup hnd (intRange_nodup _)).mpr
          (fun i => by rw [hcov i, mem_intRange])
      have hlen : (s.receivedChunks.length : Int) = s.totalChunks := by
        have hl := hperm.length_eq
        rw [intRange_length] at hl
        omega
      have hcol : ∃ chunks,
          collectChunks st.staged uid (intRange s.totalChunks) =
            .ok chunks := by
        refine (collectChunks_ok_iff _ _ _).mpr ?_
        intro i hi
        exact hrc_st i ((hcov i).mpr (mem_intRange.mp hi))
      obtain ⟨chunks, hcol⟩ := hcol
      exact ⟨chunks.flatten.length, hash chunks.flatten, _,
        complete_ok hs hlen hcol⟩
  · intro sz ck st' heq
    by_cases hlen : (s.receivedChunks.length : Int) = s.totalChunks
    · cases hcol : collectChunks st.staged uid (intRange s.totalChunks)
        with
      | error i =>
        rw [complete_ioErr hs hlen hcol] at heq
        simp at heq
      | ok chunks =>
        rw [complete_ok hs hlen hcol] at heq
        have h1 := congrArg Prod.fst heq
        have h2 := congrArg Prod.snd heq
        simp only at h1 h2
        refine ⟨chunks, rfl, ?_, ?_⟩
        · cases h1
          rfl
        · rw [← h2]
          simp only
          rw [lookupKey_setKey_self]
          rfl
    · rw [complete_missing hs hlen] at heq
      simp at heq

/-- C1 (witness): on the fully uploaded demo session (coverage of `[0, 2)`
holds) the amended theorem's iff yields a successful completion. -/
theorem complete_coverage_witness :
    Inv stFull ∧
    lookupKey "u1" stFull.sessions = some sFull ∧
    (0 : Int) ≤ sFull.totalChunks ∧
    (∃ sz ck st', complete demoCfg demoHash "f1" 0 "u1" none stFull =
      (.ok "f1" sz ck, st')) := by
  refine ⟨by decide, by decide, by decide, ?_⟩
  refine (complete_coverage demoCfg demoHash "f1" 0 "u1" none stFull sFull
    (by decide) (by decide) (by decide)).2.2.2.1.mpr ?_
  intro i
  constructor
  · intro hi
    have : i = 0 ∨ i = 1 := by
      have h := hi
      simp [sFull, sInit0] at h
      omega
    rcases this with rfl | rfl <;> simp [sFull, sInit0]
  · intro hi
    have : i = 0 ∨ i = 1 := by
      simp [sFull, sInit0] at hi
      omega
    rcases this with rfl | rfl <;> simp [sFull, sInit0]

theorem applyPuts_session_some (hash : Bytes → String)
    (l : List (String × Int × Bytes)) (st : ServiceState) (uid : String)
    (s : UploadSession) (hs : lookupKey uid st.sessions = some s) :
    ∃ s', lookupKey uid (applyPuts hash l st).sessions = some s' ∧
      stripRC s' = stripRC s := by
  have h := applyPuts_session_statics hash l st uid
  rw [hs] at h
  cases hl : lookupKey uid (applyPuts hash l st).sessions with
  | none => rw [hl] at h; simp at h
  | some s' =>
    rw [hl] at h
    exact ⟨s', rfl, by simpa using h⟩

theorem complete_congr (cfg : Config) (hash : Bytes → String)
    (fid : String) (now : Int) (uid : String)
    (cks1 cks2 : Option (List String)) (stA stB : ServiceState)
    (sA : UploadSession)
    (hA : lookupKey uid stA.sessions = some sA)
    (hB : lookupKey uid stB.sessions = some sA)
    (hst : ∀ i ∈ intRange sA.totalChunks,
      lookupKey (uid, i) stA.staged = lookupKey (uid, i) stB.staged) :
    (complete cfg hash fid now uid cks1 stA).1 =
      (complete cfg hash fid now uid cks2 stB).1 ∧
    (∀ szA ckA stA' szB ckB stB',
      complete cfg hash fid now uid cks1 stA = (.ok fid szA ckA, stA') →
      complete cfg hash fid now uid cks2 stB = (.ok fid szB ckB, stB') →
      (lookupKey fid stA'.files).map (fun f => f.content) =
        (lookupKey fid stB'.files).map (fun f => f.content)) := by
  have hcc := collectChunks_congr stA.staged stB.staged uid
    (intRange sA.totalChunks) hst
  by_cases hlen : (sA.receivedChunks.length : Int) = sA.totalChunks
  · cases hcol : collectChunks stA.staged uid (intRange sA.totalChunks)
      with
    | error i =>
      have hcolB : collectChunks stB.staged uid (intRange sA.totalChunks)
          = .error i := by rw [← hcc, hcol]
      rw [complete_ioErr hA hlen hcol, complete_ioErr hB hlen hcolB]
      refine ⟨rfl, ?_⟩
      intro szA ckA stA' szB ckB stB' hqA hqB
      simp at hqA
    | ok chunks =>
      have hcolB : collectChunks stB.staged uid (intRange sA.totalChunks)
          = .ok chunks := by rw [← hcc, hcol]
      rw [complete_ok hA hlen hcol, complete_ok hB hlen hcolB]
      refine ⟨rfl, ?_⟩
      intro szA ckA stA' szB ckB stB' hqA hqB
      have h2A := congrArg Prod.snd hqA
      have h2B := congrArg Prod.snd hqB
      simp only at h2A h2B
      rw [← h2A, ← h2B]
      simp only
      rw [lookupKey_setKey_self, lookupKey_setKey_self]
  · rw [complete_missing hA hlen, complete_missing hB hlen]
    refine ⟨rfl, ?_⟩
    intro szA ckA stA' szB ckB stB' hqA hqB
    simp at hqA

/-- C6: however the `PutChunk` calls of two executions were ordered, as
soon as they leave the same staged bytes at each index of the upload, the
two `Complete` calls answer identically, and a successful assembly reads
the staged chunks strictly in ascending index order `0, 1, ...,
totalChunks - 1` and concatenates them into the File's content — so the
output is byte-for-byte independent of arrival order. -/
theorem complete_assembly_order_independent (cfg : Config)
    (hash : Bytes → String) (fid : String) (now : Int) (uid : String)
    (st : ServiceState) (s : UploadSession)
    (l1 l2 : List (String × Int × Bytes))
    (cks1 cks2 : Option (List String))
    (hInv : Inv st) (hs : lookupKey uid st.sessions = some s)
    (hsame : ∀ i : Int,
      lookupKey (uid, i) (applyPuts hash l1 st).staged =
        lookupKey (uid, i) (applyPuts hash l2 st).staged) :
    (complete cfg hash fid now uid cks1 (applyPuts hash l1 st)).1 =
      (complete cfg hash fid now uid cks2 (applyPuts hash l2 st)).1 ∧
    (∀ sz ck st1',
      complete cfg hash fid now uid cks1 (applyPuts hash l1 st) =
        (.ok fid sz ck, st1') →
      ∃ s1 chunks,
        lookupKey uid (applyPuts hash l1 st).sessions = some s1 ∧
        collectChunks (applyPuts hash l1 st).staged uid
          (intRange s1.totalChunks) = .ok chunks ∧
        (lookupKey fid st1'.files).map (fun f => f.content) =
          some chunks.flatten ∧
        sz = chunks.flatten.length) ∧
    (∀ sz ck st1' sz2 ck2 st2',
      complete cfg hash fid now uid cks1 (applyPuts hash l1 st) =
        (.ok fid sz ck, st1') →
      complete cfg hash fid now uid cks2 (applyPuts hash l2 st) =
        (.ok fid sz2 ck2, st2') →
      (lookupKey fid st1'.files).map (fun f => f.content) =
        (lookupKey fid st2'.files).map (fun f => f.content)) := by
  obtain ⟨sA, hA, hstripA⟩ := applyPuts_session_some hash l1 st uid s hs
  obtain ⟨sB, hB, hstripB⟩ := applyPuts_session_some hash l2 st uid s hs
  have hOKA : SessionOK (applyPuts hash l1 st) uid sA :=
    (applyPuts_inv hash l1 st hInv).2 (uid, sA) (mem_of_lookupKey_eq_some hA)
  have hOKB : SessionOK (applyPuts hash l2 st) uid sB :=
    (applyPuts_inv hash l2 st hInv).2 (uid, sB) (mem_of_lookupKey_eq_some hB)
  obtain ⟨-, hsortA, hndA, hrcA, hstA⟩ := hOKA
  obtain ⟨-, hsortB, hndB, hrcB, hstB⟩ := hOKB
  have hmem : ∀ i : Int, i ∈ sA.receivedChunks ↔ i ∈ sB.receivedChunks := by
    intro i
    constructor
    · intro hi
      have hne := hrcA i hi
      rw [hsame i] at hne
      rcases (lookupKey_ne_none_iff _ _).mp hne with ⟨v, hv⟩
      exact hstB ((uid, i), v) hv rfl
    · intro hi
      have hne := hrcB i hi
      rw [← hsame i] at hne
      rcases (lookupKey_ne_none_iff _ _).mp hne with ⟨v, hv⟩
      exact hstA ((uid, i), v) hv rfl
  have hrc_eq : sA.receivedChunks = sB.receivedChunks :=
    List.eq_of_perm_of_sorted
      ((List.perm_ext_iff_of_nodup hndA hndB).mpr hmem) hsortA hsortB
  have hsAB : sA = sB := eq_of_stripRC (hstripA.trans hstripB.symm) hrc_eq
  have hB' : lookupKey uid (applyPuts hash l2 st).sessions = some sA := by
    rw [hB, hsAB]
  have hcongr := complete_congr cfg hash fid now uid cks1 cks2
    (applyPuts hash l1 st) (applyPuts hash l2 st) sA hA hB'
    (fun i _ => hsame i)
  refine ⟨hcongr.1, ?_, hcongr.2⟩
  intro sz ck st1' heq
  by_cases hlen : (sA.receivedChunks.length : Int) = sA.totalChunks
  · cases hcol : collectChunks (applyPuts hash l1 st).staged uid
      (intRange sA.totalChunks) with
    | error i =>
      rw [complete_ioErr hA hlen hcol] at heq
      simp at heq
    | ok chunks =>
      rw [complete_ok hA hlen hcol] at heq
      have h1 := congrArg Prod.fst heq
      have h2 := congrArg Prod.snd heq
      simp only at h1 h2
      refine ⟨sA, chunks, hA, hcol, ?_, ?_⟩
      · rw [← h2]
        simp only
        rw [lookupKey_setKey_self]
        rfl
      · cases h1
        rfl
  · rw [complete_missing hA hlen] at heq
    simp at heq

/-- C6 (witness): uploading the two demo chunks in the order 0,1 versus
1,0 leaves the same staged bytes at each index, and the theorem then gives
identical `Complete` responses. -/
theorem complete_assembly_witness :
    Inv stInit ∧
    lookupKey "u1" stInit.sessions = some sInit0 ∧
    (complete demoCfg demoHash "f1" 0 "u1" none
      (applyPuts demoHash [("u1", 0, bytesA), ("u1", 1, bytesB)]
        stInit)).1 =
    (complete demoCfg demoHash "f1" 0 "u1" none
      (applyPuts demoHash [("u1", 1, bytesB), ("u1", 0, bytesA)]
        stInit)).1 := by
  refine ⟨by decide, by decide, ?_⟩
  refine (complete_assembly_order_independent demoCfg demoHash "f1" 0 "u1"
    stInit sInit0 [("u1", 0, bytesA), ("u1", 1, bytesB)]
    [("u1", 1, bytesB), ("u1", 0, bytesA)] none none
    (by decide) (by decide) ?_).1
  intro i
  exact lookupKey_ext _ _ (by decide) (by decide) ("u1", i)

end SFS
